import Mathlib

/-!
Verification of the RepRapFirmware display menu-item hierarchy
(`src/Display/MenuItem.h`).

The repository files provide the class declarations together with a few
inline member bodies (`MenuItem::Advance`, `MenuItem::Select`,
`MenuItem::CanAdjust`, `MenuItem::Adjust` defaults and
`ValueMenuItem::CanAdjust`).  The out-of-line member bodies
(`MenuItem.cpp`) are not part of the repository snapshot, so those
operations are modelled from the specification, as indicated on each
definition.

Modelling conventions:
* machine integers become `Nat`/`Int` (none of the modelled quantities
  can overflow their C++ types in the scenarios considered);
* the bounded path string `m_acCurrentDirectory` is modelled as the list
  of path segments below the configured root directory;
* the storage collaborator ("list directory at path") is a parameter
  `fs : FsLister` returning `none` on a storage error;
* the float `currentValue` of `ValueMenuItem` is modelled as an `Int` in
  scaled units (the clamping logic under scrutiny is purely order
  theoretic);
* emitted command strings whose only interesting content is a numeric
  payload are modelled by the structured `AdjustCommand`.
-/

/-- Modelled from the spec: one entry of a directory listing returned by
the storage collaborator: a name and an is-directory flag
(missing code: the `MassStorage` listing interface used by
`FilesMenuItem`). -/
structure DirEntry where
  name : String
  isDir : Bool
deriving DecidableEq, Repr

/-- Modelled from the spec: the storage collaborator, a synchronous
"list directory at path" returning an ordered sequence of entries, with
failure reported as an error (`none`) rather than a partial list
(missing code: the `MassStorage` collaborator behind `m_oMS`). -/
def FsLister : Type := List String → Option (List DirEntry)

/-- Modelled from the spec: the mutable state of a `FilesMenuItem`
(missing code: `MenuItem.cpp`).  Field names follow the C++ members.
`m_acCurrentDirectory` holds the path segments below the configured
root, so the root itself is `[]`. -/
structure FilesMenuItem where
  numDisplayLines : Nat
  command : String
  m_acCurrentDirectory : List String
  m_uHardItemsInDirectory : Nat
  m_uListingFirstVisibleIndex : Nat
  m_uListingSelectedIndex : Nat
deriving DecidableEq, Repr

/-- Modelled from the spec: `bInSubdirectory()` reports whether the
browser is inside any directory other than the configured root
(missing code: `MenuItem.cpp`). -/
def FilesMenuItem.bInSubdirectory (s : FilesMenuItem) : Bool :=
  !s.m_acCurrentDirectory.isEmpty

/-- Modelled from the spec: `uListingEntries()`, the logical listing
count: the hard item count plus one synthesized parent (`..`) entry
exactly when inside a subdirectory (missing code: `MenuItem.cpp`). -/
def FilesMenuItem.uListingEntries (s : FilesMenuItem) : Nat :=
  s.m_uHardItemsInDirectory + (if s.bInSubdirectory then 1 else 0)

/-- Modelled from the spec: the hard listing of the current directory as
reported by storage; a storage error degrades to the empty listing
(missing code: `MenuItem.cpp` / `MassStorage`). -/
def hardListing (fs : FsLister) (dir : List String) : List DirEntry :=
  (fs dir).getD []

/-- Modelled from the spec: `vResetViewState()`, resetting pagination to
the top (missing code: `MenuItem.cpp`). -/
def FilesMenuItem.vResetViewState (s : FilesMenuItem) : FilesMenuItem :=
  { s with m_uListingFirstVisibleIndex := 0, m_uListingSelectedIndex := 0 }

/-- Modelled from the spec: `EnterDirectory()` (re)issues a directory
listing request for the current path, resets pagination to the top and
determines the hard item count; a storage error yields hard count 0
rather than propagating (missing code: `MenuItem.cpp`). -/
def FilesMenuItem.EnterDirectory (fs : FsLister) (s : FilesMenuItem) : FilesMenuItem :=
  { s.vResetViewState with
      m_uHardItemsInDirectory := (hardListing fs s.m_acCurrentDirectory).length }

/-- Modelled from the spec: what a logical listing index denotes: the
synthesized parent entry or a hard-listing index
(missing code: `MenuItem.cpp`). -/
inductive ListingEntry where
  | parent
  | hard (i : Nat)
deriving DecidableEq, Repr

/-- Modelled from the spec: the logical-to-hard index mapping: logical
index 0 is the parent entry when present, else logical index `i` maps
to hard index `i` (or `i - 1` when the parent entry is present)
(missing code: `MenuItem.cpp`). -/
def FilesMenuItem.logicalEntry (s : FilesMenuItem) (i : Nat) : ListingEntry :=
  if s.bInSubdirectory then
    if i = 0 then ListingEntry.parent else ListingEntry.hard (i - 1)
  else
    ListingEntry.hard i

/-- Modelled from the spec: the pagination-arithmetic core of
`FilesMenuItem::Advance` over plain numbers: the selected index moves by
`n`, clamped to `[0, entries - 1]`; the first visible index shifts when
the selection would leave the display window and is clamped so the
window never runs past the end of the listing; the unconsumed remainder
of `n` is the third component (missing code: `MenuItem.cpp`).
Result: `(new first visible, new selected, remainder)`. -/
def advanceCore (entries lines first sel : Nat) (n : Int) : Nat × Nat × Int :=
  if entries = 0 then (first, sel, n)
  else
    let target : Int := (sel : Int) + n
    let clamped : Int := max 0 (min target ((entries : Int) - 1))
    let newSel : Nat := clamped.toNat
    let shifted : Nat :=
      if newSel < first then newSel
      else if first + lines ≤ newSel then newSel + 1 - lines
      else first
    (min shifted (entries - lines), newSel, target - clamped)

/-- Modelled from the spec: `FilesMenuItem::Advance(nCounts)`, wiring
`advanceCore` to the item state; returns the updated item and the
unconsumed remainder for inter-item focus transfer
(missing code: `MenuItem.cpp`). -/
def FilesMenuItem.Advance (s : FilesMenuItem) (nCounts : Int) : FilesMenuItem × Int :=
  let r := advanceCore s.uListingEntries s.numDisplayLines
    s.m_uListingFirstVisibleIndex s.m_uListingSelectedIndex nCounts
  ({ s with m_uListingFirstVisibleIndex := r.1, m_uListingSelectedIndex := r.2.1 },
   r.2.2)

/-- Modelled from the spec: template substitution on the character list:
the first embedded placeholder in the configured command template is
replaced with the argument (missing code: `MenuItem.cpp`). -/
def substChars : List Char → List Char → List Char
  | [], _ => []
  | '\x7b' :: '\x7d' :: rest, arg => arg ++ rest
  | c :: rest, arg => c :: substChars rest arg

/-- Modelled from the spec: the template-substitution convention: an
embedded path/value placeholder in the command template is replaced
with the concrete argument before the command string is returned
(missing code: `MenuItem.cpp`). -/
def substituteArg (template arg : String) : String :=
  String.mk (substChars template.data arg.data)

/-- Modelled from the spec: rendering the current directory plus a file
name into the path handed to the command template
(missing code: `MenuItem.cpp`). -/
def pathString (segments : List String) : String :=
  String.intercalate "/" segments

/-- Modelled from the spec: `FilesMenuItem::Select()`: on the
synthesized parent entry, pops one path segment and re-enters; on a
real subdirectory, appends its name and re-enters; on a file, formats
the command template with the file's path and returns it
(missing code: `MenuItem.cpp`). -/
def FilesMenuItem.Select (fs : FsLister) (s : FilesMenuItem) :
    FilesMenuItem × Option String :=
  if s.bInSubdirectory = true ∧ s.m_uListingSelectedIndex = 0 then
    (FilesMenuItem.EnterDirectory fs
      { s with m_acCurrentDirectory := s.m_acCurrentDirectory.dropLast }, none)
  else
    let hardIndex :=
      if s.bInSubdirectory then s.m_uListingSelectedIndex - 1
      else s.m_uListingSelectedIndex
    match (hardListing fs s.m_acCurrentDirectory)[hardIndex]? with
    | none => (s, none)
    | some e =>
      if e.isDir then
        (FilesMenuItem.EnterDirectory fs
          { s with m_acCurrentDirectory := s.m_acCurrentDirectory ++ [e.name] }, none)
      else
        (s, some (substituteArg s.command (pathString (s.m_acCurrentDirectory ++ [e.name]))))

/-- Modelled from the spec: a storage collaborator that fails on every
path, exercising the listing-failure policy
(missing code: the `MassStorage` collaborator). -/
def fsAlwaysFails : FsLister := fun _ => none

/-- Modelled from the spec: the edit-mode tag of `ValueMenuItem`,
mirroring `enum class AdjustMode { displaying, adjusting, liveAdjusting }`
of `MenuItem.h`. -/
inductive AdjustMode where
  | displaying
  | adjusting
  | liveAdjusting
deriving DecidableEq, Repr

/-- Modelled from the spec: the payload of a command string emitted by a
`ValueMenuItem` commit or live-adjust step: the targeted value index and
the numeric value formatted into the string
(missing code: `MenuItem.cpp`). -/
structure AdjustCommand where
  valIndex : Nat
  value : Int
deriving DecidableEq, Repr

/-- State of a `ValueMenuItem` as declared in `MenuItem.h`: the value
index, the currently displayed value (modelled as an `Int` in scaled
units), the decimal-places count, the edit-mode tag and the
`adjustable` and `error` flags. -/
structure ValueMenuItem where
  valIndex : Nat
  currentValue : Int
  decimals : Nat
  adjusting : AdjustMode
  adjustable : Bool
  error : Bool
deriving DecidableEq, Repr

/-- Embeds the inline body in `MenuItem.h` line 141:
`bool CanAdjust() override { return true; }`. -/
def ValueMenuItem.CanAdjust (_ : ValueMenuItem) : Bool := true

/-- Modelled from the spec: out-of-range tentative values are clamped to
the field's legal range, never wrapped (missing code: `MenuItem.cpp`,
`ValueMenuItem::Adjust_AlterHelper`). -/
def clampValue (minV maxV x : Int) : Int := max minV (min x maxV)

/-- Modelled from the spec: `ValueMenuItem::Select()` enters edit mode:
`displaying -> adjusting` for confirm-style fields, or
`displaying -> liveAdjusting` for fields flagged to apply changes
immediately; it returns no command in either case
(missing code: `MenuItem.cpp`). -/
def ValueMenuItem.Select (liveOnly : Bool) (v : ValueMenuItem) :
    ValueMenuItem × Option AdjustCommand :=
  ({ v with adjusting := if liveOnly then AdjustMode.liveAdjusting else AdjustMode.adjusting },
   none)

/-- Modelled from the spec: the result of one `Adjust(clicks)` call: the
updated item, the `finished` return value, and the emitted command if
any (missing code: `MenuItem.cpp`). -/
structure AdjustResult where
  item : ValueMenuItem
  finished : Bool
  emitted : Option AdjustCommand
deriving DecidableEq, Repr

/-- Modelled from the spec: `ValueMenuItem::Adjust(clicks)` with the
field's legal range `[minV, maxV]`: in `adjusting`, nonzero clicks
update the tentative value clamped to the range and zero clicks commit
it as a command, finishing; in `liveAdjusting`, every nonzero step
clamps and emits immediately and zero clicks end the mode; the `error`
flag suppresses every emission but never blocks the state machine
(missing code: `MenuItem.cpp`). -/
def ValueMenuItem.Adjust (minV maxV : Int) (v : ValueMenuItem) (clicks : Int) :
    AdjustResult :=
  match v.adjusting with
  | AdjustMode.displaying => ⟨v, true, none⟩
  | AdjustMode.adjusting =>
    if clicks = 0 then
      ⟨{ v with adjusting := AdjustMode.displaying }, true,
        if v.error then none else some ⟨v.valIndex, v.currentValue⟩⟩
    else
      ⟨{ v with currentValue := clampValue minV maxV (v.currentValue + clicks) },
        false, none⟩
  | AdjustMode.liveAdjusting =>
    if clicks = 0 then
      ⟨{ v with adjusting := AdjustMode.displaying }, true, none⟩
    else
      let nv := clampValue minV maxV (v.currentValue + clicks)
      ⟨{ v with currentValue := nv }, false,
        if v.error then none else some ⟨v.valIndex, nv⟩⟩

/-- Modelled from the spec: applying a sequence of encoder steps to a
`ValueMenuItem` in edit mode, keeping only the item state
(missing code: `MenuItem.cpp`). -/
def ValueMenuItem.adjustSeq (minV maxV : Int) (v : ValueMenuItem) (l : List Int) :
    ValueMenuItem :=
  l.foldl (fun s c => (ValueMenuItem.Adjust minV maxV s c).item) v

/-- Modelled from the spec: zero-pads the fractional digits of the
numeric rendering (missing code: `MenuItem.cpp`). -/
def padLeftZeros (s : String) (d : Nat) : String :=
  String.mk (List.replicate (d - s.length) '0') ++ s

/-- Modelled from the spec: fixed decimal-places numeric formatting of
the scaled value (missing code: `MenuItem.cpp`,
`ValueMenuItem::CorePrint`). -/
def formatDecimal (x : Int) (d : Nat) : String :=
  let sign := if x < 0 then "-" else ""
  let n := x.natAbs
  if d = 0 then sign ++ toString n
  else
    let p := 10 ^ d
    sign ++ toString (n / p) ++ "." ++ padLeftZeros (toString (n % p)) d

/-- Modelled from the spec: the fixed placeholder rendered when the
`error` flag is set (missing code: `MenuItem.cpp`). -/
def errorPlaceholder : String := "***"

/-- Modelled from the spec: the text content rendered by
`ValueMenuItem::Draw`: the fixed placeholder when the `error` flag is
set, otherwise the value formatted to the decimal-places count
(missing code: `MenuItem.cpp`). -/
def ValueMenuItem.drawText (v : ValueMenuItem) : String :=
  if v.error then errorPlaceholder else formatDecimal v.currentValue v.decimals

/-- Modelled from the spec: state of a `ButtonMenuItem` as declared in
`MenuItem.h`: its label text, command template and optional target-file
argument (missing code: `MenuItem.cpp`). -/
structure ButtonMenuItem where
  text : String
  command : String
  m_acFile : String
deriving DecidableEq, Repr

/-- Modelled from the spec: `ButtonMenuItem::Select()` formats the
command template, replacing the embedded placeholder with the concrete
file path, and returns the command string
(missing code: `MenuItem.cpp`). -/
def ButtonMenuItem.Select (b : ButtonMenuItem) : String :=
  substituteArg b.command b.m_acFile

/-- Modelled from the spec: the singly linked page list: the root
pointer and the heap of forward links, nodes being identified by
numbers standing for the C++ object addresses
(missing code: `MenuItem.cpp`, `MenuItem::AppendToList`). -/
structure PageList where
  root : Option Nat
  next : Nat → Option Nat

/-- Modelled from the spec: the empty page list
(missing code: `MenuItem.cpp`). -/
def PageList.empty : PageList := ⟨none, fun _ => none⟩

/-- Modelled from the spec: walking the forward links from a node until
the tail (a node with no successor), with explicit fuel standing for
the C++ loop (missing code: `MenuItem.cpp`). -/
def findTail (next : Nat → Option Nat) : Nat → Nat → Nat
  | 0, cur => cur
  | fuel + 1, cur =>
    match next cur with
    | none => cur
    | some n2 => findTail next fuel n2

/-- Modelled from the spec: `MenuItem::AppendToList(root, item)` appends
`item` to the tail of the singly linked list rooted at `root`,
preserving insertion order (missing code: `MenuItem.cpp`). -/
def PageList.AppendToList (fuel : Nat) (st : PageList) (item : Nat) : PageList :=
  match st.root with
  | none => ⟨some item, fun n => if n = item then none else st.next n⟩
  | some r =>
    let t := findTail st.next fuel r
    ⟨st.root, fun n =>
      if n = t then some item else if n = item then none else st.next n⟩

/-- Modelled from the spec: building a page by appending each item in
turn to an initially empty list (missing code: `MenuItem.cpp`). -/
def PageList.build (items : List Nat) : PageList :=
  items.foldl (fun st it => PageList.AppendToList items.length st it) PageList.empty

/-- Modelled from the spec: `GetNext()` traversal of the page list from
a node, with explicit fuel standing for the C++ iteration
(missing code: `MenuItem.cpp`; `MenuItem::GetNext` is declared inline
in `MenuItem.h` line 54). -/
def traverse (next : Nat → Option Nat) : Nat → Option Nat → List Nat
  | 0, _ => []
  | _ + 1, none => []
  | fuel + 1, some a => a :: traverse next fuel (next a)

/-- The heap of forward links realizes the list `l` of nodes starting
at the optional root pointer: each node's successor link points at the
rest of the list and the tail link is empty. -/
inductive Chain (next : Nat → Option Nat) : Option Nat → List Nat → Prop
  | nil : Chain next none []
  | cons {a : Nat} {l : List Nat} :
      Chain next (next a) l → Chain next (some a) (a :: l)

/-- Sample state: a `FilesMenuItem` at the root with 3 hard entries,
2 display lines and the view at the top (the spec's worked example). -/
def sRoot3 : FilesMenuItem := ⟨2, "", [], 3, 0, 0⟩

/-- Sample state: a `FilesMenuItem` inside subdirectory `sub` with 2
hard entries and 2 display lines. -/
def sSub2 : FilesMenuItem := ⟨2, "", ["sub"], 2, 0, 0⟩

/-- Sample state: a `ValueMenuItem` holding 180.0 at one decimal place
(scaled value 1800), in `adjusting` mode with no error. -/
def vAdj180 : ValueMenuItem := ⟨0, 1800, 1, AdjustMode.adjusting, true, false⟩

/-- Sample state: a `ValueMenuItem` whose `error` flag is set. -/
def vErr : ValueMenuItem := ⟨1, 50, 0, AdjustMode.adjusting, true, true⟩

/-- Sample storage: a root holding the subdirectory `sub` (itself
holding one file) and one printable file. -/
def fsDemo : FsLister := fun d =>
  if d = [] then some [⟨"sub", true⟩, ⟨"print.g", false⟩]
  else if d = ["sub"] then some [⟨"inner.g", false⟩]
  else none

/-- Sample state: a freshly entered `FilesMenuItem` at the root of
`fsDemo`. -/
def sDemoRoot : FilesMenuItem := ⟨2, "M32 \x7b\x7d", [], 2, 0, 0⟩

/-- Arithmetic core of the `Advance` analysis: the new selected index is
the clamp of the target to `[0, entries - 1]`, the new first visible
index keeps the selection inside the window and never lets the window
run past the end, and the returned remainder is the unconsumed part of
the motion. -/
theorem advanceCore_spec (entries lines first sel : Nat) (n : Int)
    (hL : 1 ≤ lines) (hE : 1 ≤ entries) :
    (advanceCore entries lines first sel n).2.1 < entries ∧
    (advanceCore entries lines first sel n).1 ≤ (advanceCore entries lines first sel n).2.1 ∧
    (advanceCore entries lines first sel n).2.1 < (advanceCore entries lines first sel n).1 + lines ∧
    (advanceCore entries lines first sel n).1 ≤ entries - lines ∧
    ((advanceCore entries lines first sel n).2.1 : Int)
      = max 0 (min ((sel : Int) + n) ((entries : Int) - 1)) ∧
    (advanceCore entries lines first sel n).2.2
      = ((sel : Int) + n) - ((advanceCore entries lines first sel n).2.1 : Int) := by
  simp only [advanceCore]
  split_ifs <;> simp_all <;> omega

/-- `Advance` leaves the directory, the hard count, the display-line
count and hence the logical listing count unchanged. -/
theorem filesAdvance_frame (s : FilesMenuItem) (n : Int) :
    (s.Advance n).1.numDisplayLines = s.numDisplayLines ∧
    (s.Advance n).1.m_acCurrentDirectory = s.m_acCurrentDirectory ∧
    (s.Advance n).1.m_uHardItemsInDirectory = s.m_uHardItemsInDirectory ∧
    (s.Advance n).1.uListingEntries = s.uListingEntries := by
  simp [FilesMenuItem.Advance, FilesMenuItem.uListingEntries, FilesMenuItem.bInSubdirectory]

/-- The pagination indices and remainder produced by `Advance` are the
ones computed by `advanceCore`. -/
theorem filesAdvance_indices (s : FilesMenuItem) (n : Int) :
    (s.Advance n).1.m_uListingFirstVisibleIndex
      = (advanceCore s.uListingEntries s.numDisplayLines
          s.m_uListingFirstVisibleIndex s.m_uListingSelectedIndex n).1 ∧
    (s.Advance n).1.m_uListingSelectedIndex
      = (advanceCore s.uListingEntries s.numDisplayLines
          s.m_uListingFirstVisibleIndex s.m_uListingSelectedIndex n).2.1 ∧
    (s.Advance n).2
      = (advanceCore s.uListingEntries s.numDisplayLines
          s.m_uListingFirstVisibleIndex s.m_uListingSelectedIndex n).2.2 := by
  simp [FilesMenuItem.Advance]

/-- C1 (amended): after any `Advance(count)` call on a `FilesMenuItem`
whose logical listing is nonempty and whose window has at least one
display line, the pagination invariant holds: the selected index is
below the logical count, the selected item lies inside the display
window, and the first visible index is clamped so the window never
runs past the end of the listing. -/
theorem filesAdvance_pagination_invariant (s : FilesMenuItem) (n : Int)
    (hL : 1 ≤ s.numDisplayLines) (hE : 1 ≤ s.uListingEntries) :
    (s.Advance n).1.m_uListingSelectedIndex < (s.Advance n).1.uListingEntries ∧
    (s.Advance n).1.m_uListingFirstVisibleIndex ≤ (s.Advance n).1.m_uListingSelectedIndex ∧
    (s.Advance n).1.m_uListingSelectedIndex
      < (s.Advance n).1.m_uListingFirstVisibleIndex + (s.Advance n).1.numDisplayLines ∧
    (s.Advance n).1.m_uListingFirstVisibleIndex
      ≤ (s.Advance n).1.uListingEntries - (s.Advance n).1.numDisplayLines := by
  have h := advanceCore_spec s.uListingEntries s.numDisplayLines
    s.m_uListingFirstVisibleIndex s.m_uListingSelectedIndex n hL hE
  have hf := filesAdvance_frame s n
  have hi := filesAdvance_indices s n
  rw [hf.2.2.2, hf.1, hi.1, hi.2.1]
  exact ⟨h.1, h.2.1, h.2.2.1, h.2.2.2.1⟩

/-- C1, counterexample to the claim as stated over every reachable
state: entering the root directory while storage fails is reachable and
leaves an empty logical listing, and after `Advance(1)` the invariant
`selected-index < logical-count` is violated (`0 < 0` is false). -/
theorem filesAdvance_empty_listing_breaks_invariant :
    ¬ (((FilesMenuItem.EnterDirectory fsAlwaysFails
          ⟨2, "", [], 5, 0, 0⟩).Advance 1).1.m_uListingSelectedIndex
        < ((FilesMenuItem.EnterDirectory fsAlwaysFails
          ⟨2, "", [], 5, 0, 0⟩).Advance 1).1.uListingEntries) := by
  decide

/-- C1, witness: the amended invariant theorem applied to the concrete
root listing with 3 entries and 2 display lines. -/
theorem filesAdvance_pagination_invariant_witness :
    (1 ≤ (⟨2, "", [], 3, 0, 0⟩ : FilesMenuItem).numDisplayLines ∧
     1 ≤ (⟨2, "", [], 3, 0, 0⟩ : FilesMenuItem).uListingEntries) ∧
    (((⟨2, "", [], 3, 0, 0⟩ : FilesMenuItem).Advance 1).1.m_uListingSelectedIndex
        < ((⟨2, "", [], 3, 0, 0⟩ : FilesMenuItem).Advance 1).1.uListingEntries ∧
     ((⟨2, "", [], 3, 0, 0⟩ : FilesMenuItem).Advance 1).1.m_uListingFirstVisibleIndex
        ≤ ((⟨2, "", [], 3, 0, 0⟩ : FilesMenuItem).Advance 1).1.m_uListingSelectedIndex ∧
     ((⟨2, "", [], 3, 0, 0⟩ : FilesMenuItem).Advance 1).1.m_uListingSelectedIndex
        < ((⟨2, "", [], 3, 0, 0⟩ : FilesMenuItem).Advance 1).1.m_uListingFirstVisibleIndex
          + ((⟨2, "", [], 3, 0, 0⟩ : FilesMenuItem).Advance 1).1.numDisplayLines ∧
     ((⟨2, "", [], 3, 0, 0⟩ : FilesMenuItem).Advance 1).1.m_uListingFirstVisibleIndex
        ≤ ((⟨2, "", [], 3, 0, 0⟩ : FilesMenuItem).Advance 1).1.uListingEntries
          - ((⟨2, "", [], 3, 0, 0⟩ : FilesMenuItem).Advance 1).1.numDisplayLines) :=
  ⟨⟨by decide, by decide⟩,
   filesAdvance_pagination_invariant ⟨2, "", [], 3, 0, 0⟩ 1 (by decide) (by decide)⟩

/-- C4: `Advance(count)` on a nonempty listing moves the selected index
by `count` clamped to `[0, logical-count - 1]`, returns exactly the
unconsumed remainder of the motion (zero when no clamping happened at a
listing edge), keeps the selection inside the display window, and
leaves the directory and hard count untouched. -/
theorem filesAdvance_clamp_and_remainder (s : FilesMenuItem) (n : Int)
    (hL : 1 ≤ s.numDisplayLines) (hE : 1 ≤ s.uListingEntries) :
    ((s.Advance n).1.m_uListingSelectedIndex : Int)
      = max 0 (min ((s.m_uListingSelectedIndex : Int) + n) ((s.uListingEntries : Int) - 1)) ∧
    (s.Advance n).2
      = ((s.m_uListingSelectedIndex : Int) + n)
        - ((s.Advance n).1.m_uListingSelectedIndex : Int) ∧
    (0 ≤ (s.m_uListingSelectedIndex : Int) + n →
      (s.m_uListingSelectedIndex : Int) + n ≤ (s.uListingEntries : Int) - 1 →
      (s.Advance n).2 = 0) ∧
    (s.Advance n).1.m_uListingFirstVisibleIndex ≤ (s.Advance n).1.m_uListingSelectedIndex ∧
    (s.Advance n).1.m_uListingSelectedIndex
      < (s.Advance n).1.m_uListingFirstVisibleIndex + s.numDisplayLines ∧
    (s.Advance n).1.m_acCurrentDirectory = s.m_acCurrentDirectory ∧
    (s.Advance n).1.m_uHardItemsInDirectory = s.m_uHardItemsInDirectory := by
  have h := advanceCore_spec s.uListingEntries s.numDisplayLines
    s.m_uListingFirstVisibleIndex s.m_uListingSelectedIndex n hL hE
  have hf := filesAdvance_frame s n
  have hi := filesAdvance_indices s n
  rw [hi.1, hi.2.1, hi.2.2]
  refine ⟨h.2.2.2.2.1, h.2.2.2.2.2, ?_, h.2.1, h.2.2.1, hf.2.1, hf.2.2.1⟩
  intro h1 h2
  rw [h.2.2.2.2.2, h.2.2.2.2.1]
  omega

/-- C4, witness: the clamp-and-remainder theorem applied to `Advance(1)`
on the concrete root listing with 3 entries and 2 display lines. -/
theorem filesAdvance_clamp_and_remainder_witness :
    (1 ≤ sRoot3.numDisplayLines ∧ 1 ≤ sRoot3.uListingEntries) ∧
    (((sRoot3.Advance 1).1.m_uListingSelectedIndex : Int)
      = max 0 (min ((sRoot3.m_uListingSelectedIndex : Int) + 1) ((sRoot3.uListingEntries : Int) - 1)) ∧
    (sRoot3.Advance 1).2
      = ((sRoot3.m_uListingSelectedIndex : Int) + 1)
        - ((sRoot3.Advance 1).1.m_uListingSelectedIndex : Int) ∧
    (0 ≤ (sRoot3.m_uListingSelectedIndex : Int) + 1 →
      (sRoot3.m_uListingSelectedIndex : Int) + 1 ≤ (sRoot3.uListingEntries : Int) - 1 →
      (sRoot3.Advance 1).2 = 0) ∧
    (sRoot3.Advance 1).1.m_uListingFirstVisibleIndex
      ≤ (sRoot3.Advance 1).1.m_uListingSelectedIndex ∧
    (sRoot3.Advance 1).1.m_uListingSelectedIndex
      < (sRoot3.Advance 1).1.m_uListingFirstVisibleIndex + sRoot3.numDisplayLines ∧
    (sRoot3.Advance 1).1.m_acCurrentDirectory = sRoot3.m_acCurrentDirectory ∧
    (sRoot3.Advance 1).1.m_uHardItemsInDirectory = sRoot3.m_uHardItemsInDirectory) :=
  ⟨⟨by decide, by decide⟩,
   filesAdvance_clamp_and_remainder sRoot3 1 (by decide) (by decide)⟩

/-- C3: the logical listing count equals the hard count plus one
exactly when inside a subdirectory (`bInSubdirectory`) and equals the
hard count alone at the root; logical index 0 is the parent entry when
present, logical index `i ≥ 1` maps to hard index `i - 1` inside a
subdirectory, and logical index `i` maps directly to hard index `i` at
the root. -/
theorem listing_count_and_index_mapping (s : FilesMenuItem) :
    s.uListingEntries
      = s.m_uHardItemsInDirectory + (if s.bInSubdirectory then 1 else 0) ∧
    (s.bInSubdirectory = true →
      s.logicalEntry 0 = ListingEntry.parent ∧
      (∀ i : Nat, 1 ≤ i → s.logicalEntry i = ListingEntry.hard (i - 1)) ∧
      s.uListingEntries = s.m_uHardItemsInDirectory + 1) ∧
    (s.bInSubdirectory = false →
      (∀ i : Nat, s.logicalEntry i = ListingEntry.hard i) ∧
      s.uListingEntries = s.m_uHardItemsInDirectory) := by
  refine ⟨rfl, fun h => ⟨?_, fun i hi => ?_, ?_⟩, fun h => ⟨fun i => ?_, ?_⟩⟩
  · simp [FilesMenuItem.logicalEntry, h]
  · simp only [FilesMenuItem.logicalEntry, h, if_true]
    rw [if_neg (by omega)]
  · simp [FilesMenuItem.uListingEntries, h]
  · simp [FilesMenuItem.logicalEntry, h]
  · simp [FilesMenuItem.uListingEntries, h]

/-- C3, witness: the count and mapping theorem instantiated at the
concrete subdirectory state with 2 hard entries: logical 0 is the
parent, logical 2 is hard 1, and the logical count is 3. -/
theorem listing_count_and_index_mapping_witness :
    sSub2.logicalEntry 0 = ListingEntry.parent ∧
    sSub2.logicalEntry 2 = ListingEntry.hard 1 ∧
    sSub2.uListingEntries = sSub2.m_uHardItemsInDirectory + 1 :=
  ⟨((listing_count_and_index_mapping sSub2).2.1 (by decide)).1,
   ((listing_count_and_index_mapping sSub2).2.1 (by decide)).2.1 2 (by decide),
   ((listing_count_and_index_mapping sSub2).2.1 (by decide)).2.2⟩

/-- C8: when the storage collaborator reports an error for the current
directory, `EnterDirectory` sets the hard item count to 0 and resets
pagination, so the logical listing degrades to only the synthesized
parent entry inside a subdirectory and to an empty listing at the root,
and no error propagates (the browser state remains well formed). -/
theorem enterDirectory_storage_error_degrades (fs : FsLister) (s : FilesMenuItem)
    (h : fs s.m_acCurrentDirectory = none) :
    (FilesMenuItem.EnterDirectory fs s).m_uHardItemsInDirectory = 0 ∧
    (FilesMenuItem.EnterDirectory fs s).uListingEntries
      = (if (FilesMenuItem.EnterDirectory fs s).bInSubdirectory then 1 else 0) ∧
    (FilesMenuItem.EnterDirectory fs s).m_uListingSelectedIndex = 0 ∧
    (FilesMenuItem.EnterDirectory fs s).m_uListingFirstVisibleIndex = 0 ∧
    (FilesMenuItem.EnterDirectory fs s).m_acCurrentDirectory = s.m_acCurrentDirectory := by
  simp [FilesMenuItem.EnterDirectory, FilesMenuItem.vResetViewState, hardListing, h,
    FilesMenuItem.uListingEntries, FilesMenuItem.bInSubdirectory]

/-- C8, witness: the degradation theorem applied to the always-failing
storage collaborator in a concrete subdirectory. -/
theorem enterDirectory_storage_error_degrades_witness :
    fsAlwaysFails sSub2.m_acCurrentDirectory = none ∧
    ((FilesMenuItem.EnterDirectory fsAlwaysFails sSub2).m_uHardItemsInDirectory = 0 ∧
     (FilesMenuItem.EnterDirectory fsAlwaysFails sSub2).uListingEntries
       = (if (FilesMenuItem.EnterDirectory fsAlwaysFails sSub2).bInSubdirectory then 1 else 0) ∧
     (FilesMenuItem.EnterDirectory fsAlwaysFails sSub2).m_uListingSelectedIndex = 0 ∧
     (FilesMenuItem.EnterDirectory fsAlwaysFails sSub2).m_uListingFirstVisibleIndex = 0 ∧
     (FilesMenuItem.EnterDirectory fsAlwaysFails sSub2).m_acCurrentDirectory
       = sSub2.m_acCurrentDirectory) :=
  ⟨rfl, enterDirectory_storage_error_degrades fsAlwaysFails sSub2 rfl⟩

/-- C10: `ValueMenuItem::CanAdjust()` returns `true` unconditionally,
for every item state, regardless of the `adjustable` and `error`
flags, so a `Select()` returning no command always tells the caller to
open edit mode. -/
theorem valueCanAdjust_always_true (v : ValueMenuItem) : v.CanAdjust = true := rfl

/-- C9: a `ButtonMenuItem` whose command template embeds the
placeholder and whose target file is `config.g` returns exactly
`M98 P"config.g"` from `Select()`: the placeholder is replaced by the
concrete file path before the command string is returned. -/
theorem buttonSelect_substitutes_placeholder :
    ButtonMenuItem.Select ⟨"Print", "M98 P\"\x7b\x7d\"", "config.g"⟩
      = "M98 P\"config.g\"" := by
  decide

/-- Induction core for the edit sequence: a run of nonzero encoder
steps in `adjusting` mode keeps the mode, the error flag and the value
index, and leaves the tentative value inside `[minV, maxV]` as soon as
the run is nonempty or the starting value was already in range. -/
theorem adjustSeq_props (minV maxV : Int) :
    ∀ (l : List Int) (v : ValueMenuItem),
      (∀ c ∈ l, c ≠ 0) → v.adjusting = AdjustMode.adjusting →
      (ValueMenuItem.adjustSeq minV maxV v l).adjusting = AdjustMode.adjusting ∧
      (ValueMenuItem.adjustSeq minV maxV v l).error = v.error ∧
      (ValueMenuItem.adjustSeq minV maxV v l).valIndex = v.valIndex ∧
      (minV ≤ maxV →
        (l ≠ [] ∨ (minV ≤ v.currentValue ∧ v.currentValue ≤ maxV)) →
        minV ≤ (ValueMenuItem.adjustSeq minV maxV v l).currentValue ∧
        (ValueMenuItem.adjustSeq minV maxV v l).currentValue ≤ maxV) := by
  intro l
  induction l with
  | nil =>
    intro v hnz hmode
    refine ⟨hmode, rfl, rfl, fun hmm hr => ?_⟩
    rcases hr with h | h
    · exact absurd rfl h
    · exact h
  | cons c l2 ih =>
    intro v hnz hmode
    have hc : c ≠ 0 := hnz c (by simp)
    have hstep : (ValueMenuItem.Adjust minV maxV v c).item
        = { v with currentValue := clampValue minV maxV (v.currentValue + c) } := by
      simp [ValueMenuItem.Adjust, hmode, hc]
    have hseq : ValueMenuItem.adjustSeq minV maxV v (c :: l2)
        = ValueMenuItem.adjustSeq minV maxV (ValueMenuItem.Adjust minV maxV v c).item l2 := rfl
    have hmode2 : (ValueMenuItem.Adjust minV maxV v c).item.adjusting
        = AdjustMode.adjusting := by rw [hstep]; exact hmode
    obtain ⟨h1, h2, h3, h4⟩ := ih (ValueMenuItem.Adjust minV maxV v c).item
      (fun d hd => hnz d (by simp [hd])) hmode2
    rw [hseq]
    refine ⟨h1, ?_, ?_, fun hmm _ => h4 hmm (Or.inr ?_)⟩
    · rw [h2, hstep]
    · rw [h3, hstep]
    · rw [hstep]
      simp only [clampValue]
      constructor
      · exact le_max_left _ _
      · exact max_le hmm (min_le_right _ _)

/-- C2: after any nonempty run of nonzero `Adjust(clicks)` calls in
`adjusting` mode, the commit (`Adjust(0)`) emits a command whose value
is exactly the tentative value, that value lies within the field's
legal range `[minV, maxV]` (clamped on every step, never wrapped,
regardless of cumulative over- or under-shoot), and the commit finishes
edit mode, returning to `displaying`. -/
theorem valueAdjust_commit_within_range (minV maxV : Int) (v : ValueMenuItem)
    (l : List Int) (hmm : minV ≤ maxV) (hne : l ≠ []) (hnz : ∀ c ∈ l, c ≠ 0)
    (hmode : v.adjusting = AdjustMode.adjusting) (herr : v.error = false) :
    (ValueMenuItem.Adjust minV maxV (ValueMenuItem.adjustSeq minV maxV v l) 0).emitted
      = some ⟨v.valIndex, (ValueMenuItem.adjustSeq minV maxV v l).currentValue⟩ ∧
    minV ≤ (ValueMenuItem.adjustSeq minV maxV v l).currentValue ∧
    (ValueMenuItem.adjustSeq minV maxV v l).currentValue ≤ maxV ∧
    (ValueMenuItem.Adjust minV maxV (ValueMenuItem.adjustSeq minV maxV v l) 0).finished
      = true ∧
    (ValueMenuItem.Adjust minV maxV
      (ValueMenuItem.adjustSeq minV maxV v l) 0).item.adjusting
      = AdjustMode.displaying := by
  obtain ⟨h1, h2, h3, h4⟩ := adjustSeq_props minV maxV l v hnz hmode
  obtain ⟨hlo, hhi⟩ := h4 hmm (Or.inl hne)
  rw [herr] at h2
  refine ⟨?_, hlo, hhi, ?_, ?_⟩ <;> simp [ValueMenuItem.Adjust, h1, h2, h3]

/-- C2, witness: the commit theorem applied to the spec's worked
example, 180.0 in scaled units with range `[0, 3000]`, overshooting by
two steps of 2000 and 500; the commit is clamped to 3000. -/
theorem valueAdjust_commit_within_range_witness :
    ((0 : Int) ≤ 3000 ∧ ([2000, 500] : List Int) ≠ [] ∧
     (∀ c ∈ ([2000, 500] : List Int), c ≠ 0) ∧
     vAdj180.adjusting = AdjustMode.adjusting ∧ vAdj180.error = false) ∧
    ((ValueMenuItem.Adjust 0 3000
        (ValueMenuItem.adjustSeq 0 3000 vAdj180 [2000, 500]) 0).emitted
       = some ⟨vAdj180.valIndex,
           (ValueMenuItem.adjustSeq 0 3000 vAdj180 [2000, 500]).currentValue⟩ ∧
     (0 : Int) ≤ (ValueMenuItem.adjustSeq 0 3000 vAdj180 [2000, 500]).currentValue ∧
     (ValueMenuItem.adjustSeq 0 3000 vAdj180 [2000, 500]).currentValue ≤ 3000 ∧
     (ValueMenuItem.Adjust 0 3000
        (ValueMenuItem.adjustSeq 0 3000 vAdj180 [2000, 500]) 0).finished = true ∧
     (ValueMenuItem.Adjust 0 3000
        (ValueMenuItem.adjustSeq 0 3000 vAdj180 [2000, 500]) 0).item.adjusting
       = AdjustMode.displaying) :=
  ⟨⟨by decide, by decide, by decide, rfl, rfl⟩,
   valueAdjust_commit_within_range 0 3000 vAdj180 [2000, 500]
     (by decide) (by decide) (by decide) rfl rfl⟩

/-- C7: a `ValueMenuItem` whose `error` flag is set draws the fixed
placeholder instead of a formatted number, and neither `Select()` nor
`Adjust(clicks)` (any clicks, any range, any edit mode) emits a
command. -/
theorem value_error_suppresses_commands (v : ValueMenuItem) (liveOnly : Bool)
    (minV maxV clicks : Int) (h : v.error = true) :
    ValueMenuItem.drawText v = errorPlaceholder ∧
    (ValueMenuItem.Select liveOnly v).2 = none ∧
    (ValueMenuItem.Adjust minV maxV v clicks).emitted = none := by
  refine ⟨by simp [ValueMenuItem.drawText, h], rfl, ?_⟩
  unfold ValueMenuItem.Adjust
  cases hm : v.adjusting <;> simp only [] <;> split_ifs <;> simp [h]

/-- C7, witness: the suppression theorem applied to the concrete
errored item in `adjusting` mode. -/
theorem value_error_suppresses_commands_witness :
    vErr.error = true ∧
    (ValueMenuItem.drawText vErr = errorPlaceholder ∧
     (ValueMenuItem.Select false vErr).2 = none ∧
     (ValueMenuItem.Adjust 0 100 vErr 5).emitted = none) :=
  ⟨rfl, value_error_suppresses_commands vErr false 0 100 5 rfl⟩

/-- C5: selecting a real subdirectory entry enters it, and immediately
selecting the synthesized parent entry (which the fresh view leaves
selected at logical index 0) restores the exact prior
current-directory path; the resulting state is the freshly entered
state of the original directory, so when the original state was itself
freshly entered the whole prior selection context is restored. -/
theorem filesSelect_parent_round_trip (fs : FsLister) (s : FilesMenuItem) (e : DirEntry)
    (hpar : s.bInSubdirectory = false ∨ 1 ≤ s.m_uListingSelectedIndex)
    (hentry : (hardListing fs s.m_acCurrentDirectory)[
        (if s.bInSubdirectory then s.m_uListingSelectedIndex - 1
         else s.m_uListingSelectedIndex)]? = some e)
    (hdir : e.isDir = true) :
    (FilesMenuItem.Select fs s).1.m_acCurrentDirectory
      = s.m_acCurrentDirectory ++ [e.name] ∧
    (FilesMenuItem.Select fs (FilesMenuItem.Select fs s).1).1.m_acCurrentDirectory
      = s.m_acCurrentDirectory ∧
    (FilesMenuItem.Select fs (FilesMenuItem.Select fs s).1).1
      = FilesMenuItem.EnterDirectory fs s ∧
    (s.m_uHardItemsInDirectory = (hardListing fs s.m_acCurrentDirectory).length →
      s.m_uListingSelectedIndex = 0 → s.m_uListingFirstVisibleIndex = 0 →
      (FilesMenuItem.Select fs (FilesMenuItem.Select fs s).1).1 = s) := by
  have hcond : ¬ (s.bInSubdirectory = true ∧ s.m_uListingSelectedIndex = 0) := by
    rcases hpar with h | h
    · intro hc
      rw [h] at hc
      exact absurd hc.1 (by decide)
    · intro hc
      omega
  have hs1 : (FilesMenuItem.Select fs s).1
      = FilesMenuItem.EnterDirectory fs
          { s with m_acCurrentDirectory := s.m_acCurrentDirectory ++ [e.name] } := by
    unfold FilesMenuItem.Select
    rw [if_neg hcond]
    simp only [hentry, hdir, if_true]
  have hdir1 : (FilesMenuItem.Select fs s).1.m_acCurrentDirectory
      = s.m_acCurrentDirectory ++ [e.name] := by
    rw [hs1]
    rfl
  have hsub1 : (FilesMenuItem.Select fs s).1.bInSubdirectory = true := by
    rw [FilesMenuItem.bInSubdirectory, hdir1]
    simp
  have hsel1 : (FilesMenuItem.Select fs s).1.m_uListingSelectedIndex = 0 := by
    rw [hs1]
    rfl
  have hs2 : (FilesMenuItem.Select fs (FilesMenuItem.Select fs s).1).1
      = FilesMenuItem.EnterDirectory fs
          { (FilesMenuItem.Select fs s).1 with
              m_acCurrentDirectory :=
                (FilesMenuItem.Select fs s).1.m_acCurrentDirectory.dropLast } := by
    unfold FilesMenuItem.Select
    rw [if_pos ⟨hsub1, hsel1⟩]
  have hdrop : (FilesMenuItem.Select fs s).1.m_acCurrentDirectory.dropLast
      = s.m_acCurrentDirectory := by
    rw [hdir1]
    simp
  have hback : (FilesMenuItem.Select fs (FilesMenuItem.Select fs s).1).1
      = FilesMenuItem.EnterDirectory fs s := by
    rw [hs2, hs1]
    simp [FilesMenuItem.EnterDirectory, FilesMenuItem.vResetViewState, hdrop]
  refine ⟨hdir1, ?_, hback, fun h1 h2 h3 => ?_⟩
  · rw [hback]
    rfl
  · rw [hback]
    cases s
    simp_all [FilesMenuItem.EnterDirectory, FilesMenuItem.vResetViewState]

/-- C5, witness: the round-trip theorem applied to the concrete demo
storage: from the freshly entered root, selecting the subdirectory
entry `sub` and then the parent entry restores the root state
exactly. -/
theorem filesSelect_parent_round_trip_witness :
    ((sDemoRoot.bInSubdirectory = false ∨ 1 ≤ sDemoRoot.m_uListingSelectedIndex) ∧
     (hardListing fsDemo sDemoRoot.m_acCurrentDirectory)[
        (if sDemoRoot.bInSubdirectory then sDemoRoot.m_uListingSelectedIndex - 1
         else sDemoRoot.m_uListingSelectedIndex)]? = some ⟨"sub", true⟩ ∧
     (⟨"sub", true⟩ : DirEntry).isDir = true) ∧
    ((FilesMenuItem.Select fsDemo sDemoRoot).1.m_acCurrentDirectory
       = sDemoRoot.m_acCurrentDirectory ++ ["sub"] ∧
     (FilesMenuItem.Select fsDemo
        (FilesMenuItem.Select fsDemo sDemoRoot).1).1.m_acCurrentDirectory
       = sDemoRoot.m_acCurrentDirectory ∧
     (FilesMenuItem.Select fsDemo (FilesMenuItem.Select fsDemo sDemoRoot).1).1
       = FilesMenuItem.EnterDirectory fsDemo sDemoRoot ∧
     (sDemoRoot.m_uHardItemsInDirectory
        = (hardListing fsDemo sDemoRoot.m_acCurrentDirectory).length →
      sDemoRoot.m_uListingSelectedIndex = 0 →
      sDemoRoot.m_uListingFirstVisibleIndex = 0 →
      (FilesMenuItem.Select fsDemo (FilesMenuItem.Select fsDemo sDemoRoot).1).1
        = sDemoRoot)) :=
  ⟨⟨by decide, by decide, rfl⟩,
   filesSelect_parent_round_trip fsDemo sDemoRoot ⟨"sub", true⟩
     (by decide) (by decide) rfl⟩

/-- A chain hanging from an empty pointer is the empty list. -/
theorem chain_none_nil {next : Nat → Option Nat} {l : List Nat}
    (h : Chain next none l) : l = [] := by
  cases h
  rfl

/-- A chain hanging from a node pointer starts with that node. -/
theorem chain_some_cons {next : Nat → Option Nat} {r : Nat} {l : List Nat}
    (h : Chain next (some r) l) :
    ∃ l2, l = r :: l2 ∧ Chain next (next r) l2 := by
  cases h with
  | cons h2 => exact ⟨_, rfl, h2⟩

/-- With enough fuel, walking the links from a node reaches the last
node of its chain. -/
theorem findTail_chain :
    ∀ (l : List Nat) (next : Nat → Option Nat) (r : Nat) (fuel : Nat),
      Chain next (next r) l → l.length ≤ fuel →
      findTail next fuel r = l.getLastD r := by
  intro l
  induction l with
  | nil =>
    intro next r fuel h hf
    have hnone : next r = none := by
      cases h2 : next r with
      | none => rfl
      | some b =>
        rw [h2] at h
        cases h
    cases fuel with
    | zero => rfl
    | succ f =>
      unfold findTail
      rw [hnone]
      rfl
  | cons b l2 ih =>
    intro next r fuel h hf
    have hb : next r = some b ∧ Chain next (next b) l2 := by
      cases h2 : next r with
      | none => rw [h2] at h; exact absurd (chain_none_nil h) (by simp)
      | some c =>
        rw [h2] at h
        obtain ⟨l3, hl3, hch⟩ := chain_some_cons h
        cases hl3
        exact ⟨rfl, hch⟩
    cases fuel with
    | zero => simp at hf
    | succ f =>
      unfold findTail
      rw [hb.1]
      show findTail next f b = (b :: l2).getLastD r
      rw [ih next b f hb.2 (by simpa using hf)]
      rw [List.getLastD_cons]

/-- Chain introduction through an explicit link value. -/
theorem chain_cons_of (next : Nat → Option Nat) (a : Nat) (o : Option Nat)
    (l : List Nat) (h : next a = o) (h2 : Chain next o l) :
    Chain next (some a) (a :: l) := by
  subst h
  exact Chain.cons h2

/-- Pointing the old tail at a fresh node extends the realized chain by
exactly that node at the end. -/
theorem chain_extend (item : Nat) :
    ∀ (l : List Nat) (next : Nat → Option Nat) (r : Nat),
      Chain next (next r) l → (r :: l).Nodup → item ∉ (r :: l) →
      Chain (fun n => if n = l.getLastD r then some item
                      else if n = item then none else next n)
        (some r) (r :: (l ++ [item])) := by
  intro l
  induction l with
  | nil =>
    intro next r hch hnd hni
    have hir : item ≠ r := by
      intro he
      exact hni (he ▸ List.mem_singleton_self r)
    exact chain_cons_of _ _ (some item) _ (by simp)
      (chain_cons_of _ _ none _ (by simp [hir]) Chain.nil)
  | cons b l2 ih =>
    intro next r hch hnd hni
    have hb : next r = some b ∧ Chain next (next b) l2 := by
      cases h2 : next r with
      | none => rw [h2] at hch; cases hch
      | some c =>
        rw [h2] at hch
        obtain ⟨l3, hl3, hch2⟩ := chain_some_cons hch
        cases hl3
        exact ⟨rfl, hch2⟩
    have hrni : r ∉ b :: l2 := (List.nodup_cons.mp hnd).1
    have hir2 : r ≠ item := by
      intro he
      exact hni (he ▸ List.mem_cons_self r (b :: l2))
    have hrlast : r ≠ l2.getLastD b := by
      intro he
      have hm : l2.getLastD b ∈ b :: l2 := List.getLastD_mem_cons l2 b
      exact hrni (he ▸ hm)
    simp only [List.getLastD_cons, List.cons_append]
    refine chain_cons_of _ _ (some b) _ ?_
      (ih next b hb.2 (List.nodup_cons.mp hnd).2
        (fun hm => hni (List.mem_cons_of_mem r hm)))
    show (if r = l2.getLastD b then some item
          else if r = item then none else next r) = some b
    rw [if_neg hrlast, if_neg hir2, hb.1]

/-- `AppendToList` of a fresh node onto a list realizing `l` realizes
`l ++ [item]`. -/
theorem appendToList_chain (st : PageList) (l : List Nat) (item fuel : Nat)
    (hch : Chain st.next st.root l) (hnd : l.Nodup) (hni : item ∉ l)
    (hf : l.length ≤ fuel + 1) :
    Chain (st.AppendToList fuel item).next (st.AppendToList fuel item).root
      (l ++ [item]) := by
  cases hroot : st.root with
  | none =>
    have hl : l = [] := chain_none_nil (hroot ▸ hch)
    subst hl
    simp only [PageList.AppendToList, hroot, List.nil_append]
    exact chain_cons_of _ _ none _ (by simp) Chain.nil
  | some r =>
    rw [hroot] at hch
    obtain ⟨l2, hl2, hch2⟩ := chain_some_cons hch
    subst hl2
    simp only [PageList.AppendToList, hroot]
    rw [findTail_chain l2 st.next r fuel hch2 (by simpa using hf)]
    simp only [List.cons_append]
    exact chain_extend item l2 st.next r hch2 hnd hni

/-- Folding `AppendToList` over a batch of fresh distinct nodes extends
the realized chain by the batch in order. -/
theorem build_chain_aux :
    ∀ (items : List Nat) (st : PageList) (l : List Nat) (F : Nat),
      Chain st.next st.root l → (l ++ items).Nodup →
      l.length + items.length ≤ F + 1 →
      Chain ((items.foldl (fun s i => PageList.AppendToList F s i) st)).next
        ((items.foldl (fun s i => PageList.AppendToList F s i) st)).root
        (l ++ items) := by
  intro items
  induction items with
  | nil =>
    intro st l F hch hnd hf
    simpa using hch
  | cons it rest ih =>
    intro st l F hch hnd hf
    have hstep := appendToList_chain st l it F hch (List.nodup_append.mp hnd).1
      (fun hm => ((List.nodup_append.mp hnd).2.2 hm (List.mem_cons_self it rest)).elim)
      (by simp at hf; omega)
    have := ih (st.AppendToList F it) (l ++ [it]) F hstep
      (by rw [List.append_assoc]; simpa using hnd)
      (by simp at hf ⊢; omega)
    simpa [List.append_assoc] using this

/-- Traversing the links with enough fuel reproduces exactly the chain
realized in the heap. -/
theorem traverse_chain :
    ∀ (l : List Nat) (next : Nat → Option Nat) (o : Option Nat) (fuel : Nat),
      Chain next o l → l.length ≤ fuel → traverse next fuel o = l := by
  intro l
  induction l with
  | nil =>
    intro next o fuel h hf
    have ho : o = none := by
      cases h
      rfl
    subst ho
    cases fuel <;> rfl
  | cons a l2 ih =>
    intro next o fuel h hf
    have ho : o = some a ∧ Chain next (next a) l2 := by
      cases h with
      | cons h2 => exact ⟨rfl, h2⟩
    obtain ⟨ho1, h2⟩ := ho
    subst ho1
    cases fuel with
    | zero => simp at hf
    | succ f =>
      show a :: traverse next f (next a) = a :: l2
      rw [ih next (next a) f h2 (by simpa using hf)]

/-- C6: building a page by a sequence of `AppendToList` calls on
distinct items yields a singly linked list whose traversal from the
root via the forward links visits the items in exactly the order in
which they were appended. -/
theorem appendToList_insertion_order (items : List Nat) (h : items.Nodup) :
    traverse (PageList.build items).next items.length (PageList.build items).root
      = items := by
  have hch := build_chain_aux items PageList.empty [] items.length
    Chain.nil (by simpa using h) (by simp)
  simp only [List.nil_append] at hch
  exact traverse_chain items _ _ items.length hch (le_refl _)

/-- C6, witness: the insertion-order theorem applied to the concrete
append sequence 5, 3, 7. -/
theorem appendToList_insertion_order_witness :
    List.Nodup [5, 3, 7] ∧
    traverse (PageList.build [5, 3, 7]).next (List.length [5, 3, 7])
      (PageList.build [5, 3, 7]).root = [5, 3, 7] :=
  ⟨by decide, appendToList_insertion_order [5, 3, 7] (by decide)⟩
